import Mathlib

/-!
Verification development for `src/administration/static/js/new-course/directives.js`:
three AngularJS widgets (`file`, `localImage`, `professorslist`) shallowly embedded
as pure Lean functions over explicit state.
-/

namespace NewCourseDirectives

/-- FileHandle from the data model: what `window.File` values carry
(name, binary content, MIME type). -/
structure FileHandle where
  name : String
  content : String
  mime : String
deriving DecidableEq

/-! ## FileInputWidget (`file` directive) -/

/-- Outcome of the native `input.onchange` handler:
`threw` models a thrown TypeError, `noUpdate` means `$setViewValue` was not
called, `updated v` means `$setViewValue(v)` was called (v = `files[0]`,
which is `undefined`, i.e. `none`, when the file list is empty). -/
inductive ChangeOutcome
  | threw
  | noUpdate
  | updated (v : Option FileHandle)
deriving DecidableEq

/-- Embeds `input.onchange` of the `file` directive:
`if(evt.target.files) { ngModel.$setViewValue(evt.target.files[0]); }`.
`files` is `none` when the event target has no `files` property (the only
falsy case: a FileList object, even empty, is truthy), and `some fs`
otherwise.  `hasNgModel` is false when the element carries no `ng-model`
binding (the directive requires `?ngModel`, so `ngModel` is then `null`,
and `null.$setViewValue` throws). -/
def fileOnChange (hasNgModel : Bool) (files : Option (List FileHandle)) :
    ChangeOutcome :=
  match files with
  | some fs => if hasNgModel then .updated fs.head? else .threw
  | none => .noUpdate

/-- Bound external value after the change handler runs with an `ng-model`
binding in place, given the previous bound value. -/
def fileBoundAfter (files : Option (List FileHandle)) (prev : Option FileHandle) :
    Option FileHandle :=
  match fileOnChange true files with
  | .updated v => v
  | _ => prev

/-- Embeds the test `/^ng/.test(att)` used by the attribute copy loop. -/
def ngAttr (s : String) : Bool :=
  match s.data with
  | 'n' :: 'g' :: _ => true
  | _ => false

/-- One iteration of the attribute copy loop:
`if(! /^ng/.test(att)) { input[att] = element.attr(att); }`.
The input element's properties are a partial map `String → Option String`. -/
def fileLinkStep (elemAttr : String → Option String)
    (input : String → Option String) (att : String) : String → Option String :=
  if ngAttr att then input
  else fun k => if k = att then elemAttr att else input k

/-- The whole attribute copy loop `for( var att in attrs ) ...`, starting from
a fresh input element (no attributes set). -/
def fileLinkInput (attNames : List String) (elemAttr : String → Option String) :
    String → Option String :=
  attNames.foldl (fileLinkStep elemAttr) (fun _ => none)

/-! ### The class transfer

`input.className = element.attr('class').replace(/\bng[^ ]+ *\/g, '').trim();`
`element.attr('class', '');`

Class attribute values are embedded as `List Char`.  The regex replacement is
embedded as a left-to-right scan `stripRun`: state `copy prev` copies
characters (remembering the previous scanned character for the `\b` word
boundary test), state `skipTok` consumes the `[^ ]+` part of a match, and
state `skipSp` consumes the trailing `' '*` part. -/

/-- JS regex word character (`\w`): ASCII letters, digits, underscore. -/
def isWordChar (c : Char) : Bool := c.isAlpha || c.isDigit || c = '_'

/-- The `\b` test before the literal `n`: since `n` is a word character,
a boundary holds iff the previous character is absent or not a word
character. -/
def bnd : Option Char → Bool
  | none => true
  | some p => !isWordChar p

/-- Scanner state for the regex replacement. -/
inductive StripState
  | copy (prev : Option Char)
  | skipTok
  | skipSp
deriving DecidableEq

/-- Left-to-right global replacement of `/\bng[^ ]+ *\/` by the empty string.
In `copy prev`, a match starts at the current character when it is `n` at a
word boundary and the next two characters are `g` and a non-space; the `n`,
`g` and that character are consumed and `skipTok` consumes the rest of the
`[^ ]+` run, then `skipSp` consumes the `' '*` run.  On no match the
character is emitted and scanning moves one character forward.  Exiting
`skipSp` at a non-space re-enters copying with previous character a space
(boundary true). -/
def stripRun : StripState → List Char → List Char
  | _, [] => []
  | .skipTok, a :: rest =>
      if a = ' ' then stripRun .skipSp rest else stripRun .skipTok rest
  | .skipSp, [a] =>
      if a = ' ' then [] else [a]
  | .skipSp, [a, b] =>
      if a = ' ' then stripRun .skipSp [b]
      else a :: stripRun (.copy (some a)) [b]
  | .skipSp, a :: b :: c :: rest2 =>
      if a = ' ' then stripRun .skipSp (b :: c :: rest2)
      else if a = 'n' && b = 'g' && c != ' ' then stripRun .skipTok rest2
      else a :: stripRun (.copy (some a)) (b :: c :: rest2)
  | .copy _, [a] => [a]
  | .copy _, [a, b] =>
      a :: stripRun (.copy (some a)) [b]
  | .copy prev, a :: b :: c :: rest2 =>
      if a = 'n' && bnd prev && b = 'g' && c != ' ' then stripRun .skipTok rest2
      else a :: stripRun (.copy (some a)) (b :: c :: rest2)

/-- JS whitespace relevant to `.trim()` (model: the common ASCII ones). -/
def isWS (c : Char) : Bool := c = ' ' || c = '\t' || c = '\n' || c = '\r'

/-- Embeds `.trim()`: drop whitespace from both ends. -/
def trimChars (l : List Char) : List Char :=
  ((l.dropWhile isWS).reverse.dropWhile isWS).reverse

/-- The value assigned to `input.className`:
`element.attr('class').replace(/\bng[^ ]+ *\/g, '').trim()`. -/
def fileInputClassName (cls : List Char) : List Char :=
  trimChars (stripRun (.copy none) cls)

/-- Result of linking the `file` directive: the input element's copied
properties, its class string, and the custom element's class string after
`element.attr('class', '')`. -/
structure FileLinkResult where
  inputProps : String → Option String
  inputClassName : List Char
  elemClassAfter : List Char

/-- Linking the `file` directive.  `cls` is `element.attr('class')`:
`none` when the element has no class attribute, in which case
`undefined.replace` throws a TypeError (modelled by `none`). -/
def fileLink (attNames : List String) (elemAttr : String → Option String)
    (cls : Option (List Char)) : Option FileLinkResult :=
  match cls with
  | none => none
  | some c =>
      some ⟨fileLinkInput attNames elemAttr, fileInputClassName c, []⟩

/-- Class list of a class attribute string: its space-separated tokens
(auxiliary scanner with an accumulator for the token being read,
stored reversed). -/
def classTokensAux (cur : List Char) : List Char → List (List Char)
  | [] => if cur.isEmpty then [] else [cur.reverse]
  | c :: cs =>
      if c = ' ' then
        if cur.isEmpty then classTokensAux [] cs
        else cur.reverse :: classTokensAux [] cs
      else classTokensAux (c :: cur) cs

/-- Class list of a class attribute string. -/
def classTokens (l : List Char) : List (List Char) :=
  classTokensAux [] l

/-- A class token the regex `/\bng[^ ]+ *\/` matches at its start (the token
start is always at a word boundary, being preceded by a space or the string
start): first characters `n`, `g`, then at least one more non-space
character. -/
def ngTok : List Char → Bool
  | a :: b :: c :: _ => a = 'n' && b = 'g' && c != ' '
  | _ => false

/-- No match of `/\bng[^ ]+/` can start strictly inside the scanned
characters when the previous character was `prev` and the characters are
followed by a space or the end of the string. -/
def safeFrom : Option Char → List Char → Bool
  | _, [] => true
  | _, [_] => true
  | _, [_, _] => true
  | prev, a :: b :: c :: rest =>
      !(a = 'n' && bnd prev && b = 'g' && c != ' ')
        && safeFrom (some a) (b :: c :: rest)

/-- Last character of the nonempty list `a :: t`. -/
def lastChar (a : Char) : List Char → Char
  | [] => a
  | b :: t => lastChar b t

/-- A class attribute string made of the given tokens separated by single
spaces. -/
def joinToks : List (List Char) → List Char
  | [] => []
  | [t] => t
  | t :: ts => t ++ ' ' :: joinToks ts

/-- Whether the final token of a class list is one the regex removes. -/
def endsRemoved : List (List Char) → Bool
  | [] => false
  | [t] => ngTok t
  | _ :: ts => endsRemoved ts

/-- A well-formed class token: nonempty, no whitespace characters, and
either removed whole by the regex or free of internal word-boundary `ng`
occurrences (so it is copied verbatim). -/
def goodTok (t : List Char) : Bool :=
  !t.isEmpty && t.all (fun c => !isWS c) && (ngTok t || safeFrom (some ' ') t)

/-! ## ImagePreviewWidget (`localImage` directive) -/

/-- A JavaScript value as seen by the `$watch` listener. -/
inductive JSValue
  | undef
  | nullv
  | file (f : FileHandle)
  | other (s : String)
deriving DecidableEq

/-- JS truthiness of a watched value (objects are truthy). -/
def truthy : JSValue → Bool
  | .undef => false
  | .nullv => false
  | _ => true

/-- Embeds `d.constructor === window.File`. -/
def isFileVal : JSValue → Bool
  | .file _ => true
  | _ => false

/-- The FileHandle carried by a value, if any. -/
def getFile : JSValue → Option FileHandle
  | .file f => some f
  | _ => none

/-- The image element's state touched by the widget: its
`style.display` and its `src` (absent until first assigned). -/
structure Img where
  display : String
  src : Option String
deriving DecidableEq

/-- Model of the platform's data-URL encoding of a file's content, produced
by `FileReader.readAsDataURL` (platform collaborator, not repository code). -/
def dataURL (f : FileHandle) : String :=
  "data:" ++ f.mime ++ ";base64," ++ f.content

/-- Embeds the `$watch` listener of `localImage` on one change of the bound
value `d`.  `hasFileAPI` is the truthiness of `window.File`.  Returns the
synchronously updated image state and the file whose asynchronous
`readAsDataURL` was initiated, if any. -/
def localImageStep (hasFileAPI : Bool) (d : JSValue) (img : Img) :
    Img × Option FileHandle :=
  if hasFileAPI && truthy d && isFileVal d then
    ({ img with display := "" }, getFile d)
  else
    ({ img with display := "none" }, none)

/-- Embeds `reader.onload`: `img.src = evt.target.result`. -/
def readerOnload (result : String) (img : Img) : Img :=
  { img with src := some result }

/-- Completion of an initiated read of `f`: `onload` fires with the
data-URL encoding of the file's content. -/
def completeRead (f : FileHandle) (img : Img) : Img :=
  readerOnload (dataURL f) img

/-- Embeds the guard `if( attrs.ngModel )`: the watch is registered only when
the `ng-model` attribute is present and non-empty (JS truthiness of the
attribute string). -/
def ngModelTruthy : Option String → Bool
  | none => false
  | some s => !s.isEmpty

/-- The widget's whole effect on the image element across a sequence of
bound-value changes: with no registered watch the listener never runs. -/
def localImageRun (hasFileAPI : Bool) (attrsNgModel : Option String)
    (ds : List JSValue) (img : Img) : Img :=
  if ngModelTruthy attrsNgModel then
    ds.foldl (fun i d => (localImageStep hasFileAPI d i).1) img
  else img

/-! ## ProfessorPickerWidget (`professorslist` directive) -/

/-- ProfessorRecord: identifier and display label. -/
structure Professor where
  id : Nat
  name : String
deriving DecidableEq

/-- The `onSelect` scope binding as the guard
`if($scope.onSelect && $scope.onSelect.call)` distinguishes it:
`absent` is falsy (undefined/null), `nonCallable` is a truthy non-function
(no `call` property), `callable` is a function. -/
inductive CallbackVal
  | absent
  | nonCallable
  | callable
deriving DecidableEq

/-- Embeds `$scope.onSelect && $scope.onSelect.call`. -/
def callbackGuard : CallbackVal → Bool
  | .callable => true
  | _ => false

/-- The controller scope state: the professor list and the current
selection (`null` initially). -/
structure ProfScope where
  professors : List Professor
  selectedProfessor : Option Professor
deriving DecidableEq

/-- Controller construction: `$scope.professors = Professor.query();`
`$scope.selectedProfessor = null;` (`queryResult` is the list the
directory collaborator resolves with). -/
def initScope (queryResult : List Professor) : ProfScope :=
  ⟨queryResult, none⟩

/-- Embeds `$scope.selectProfessor`: returns the scope afterwards and the
list of callback invocations (each element one invocation's argument). -/
def selectProfessor (onSelect : CallbackVal) (s : ProfScope) :
    ProfScope × List Professor :=
  match s.selectedProfessor with
  | none => (s, [])
  | some p => (s, if callbackGuard onSelect then [p] else [])

/-! ## Helper lemmas -/

/-- The attribute copy loop, characterised: after the loop, a key holds the
element's attribute value iff it is a declared non-`ng` attribute name;
all other keys keep their initial value. -/
theorem fileLinkInput_foldl (ea : String → Option String) :
    ∀ (attNames : List String) (acc : String → Option String) (k : String),
      attNames.foldl (fileLinkStep ea) acc k =
        if k ∈ attNames ∧ ngAttr k = false then ea k else acc k := by
  intro attNames
  induction attNames with
  | nil => intro acc k; simp
  | cons a l ih =>
      intro acc k
      rw [List.foldl_cons, ih]
      by_cases hng : ngAttr k = true
      · have h1 : ¬(k ∈ l ∧ ngAttr k = false) := by simp [hng]
        have h2 : ¬(k ∈ a :: l ∧ ngAttr k = false) := by simp [hng]
        rw [if_neg h1, if_neg h2]
        by_cases hnga : ngAttr a = true
        · simp [fileLinkStep, hnga]
        · have hka : k ≠ a := by
            intro h
            subst h
            exact hnga hng
          simp [fileLinkStep, hnga, hka]
      · have hng' : ngAttr k = false := by simpa using hng
        by_cases hkl : k ∈ l
        · simp [hkl, hng']
        · by_cases hka : k = a
          · subst hka
            simp [fileLinkStep, hkl, hng']
          · by_cases hnga : ngAttr a = true <;>
              simp [fileLinkStep, hkl, hka, hng', hnga]

/-- A non-whitespace character is not a space. -/
theorem ne_space_of_isWS_false {c : Char} (h : isWS c = false) : c ≠ ' ' := by
  intro hc
  subst hc
  simp [isWS] at h

/-- The boundary test is true after a space. -/
theorem bnd_space : bnd (some ' ') = true := by decide

/-- `skipTok` consumes any run of non-space characters. -/
theorem stripRun_skipTok_append (r : List Char) (xs : List Char)
    (h : ∀ c ∈ r, c ≠ ' ') :
    stripRun .skipTok (r ++ xs) = stripRun .skipTok xs := by
  induction r with
  | nil => rfl
  | cons a r ih =>
      have ha : a ≠ ' ' := h a (by simp)
      rw [List.cons_append,
        show stripRun .skipTok (a :: (r ++ xs))
          = if a = ' ' then stripRun .skipSp (r ++ xs)
            else stripRun .skipTok (r ++ xs) from rfl,
        if_neg ha]
      exact ih fun c hc => h c (by simp [hc])

/-- Leaving `skipSp` at a non-space character behaves like copy mode with a
space as previous character. -/
theorem stripRun_skipSp_exit (a : Char) (rest : List Char) (h : a ≠ ' ') :
    stripRun .skipSp (a :: rest) = stripRun (.copy (some ' ')) (a :: rest) := by
  cases rest with
  | nil => simp [stripRun, h]
  | cons b rest1 =>
      cases rest1 with
      | nil => simp [stripRun, h]
      | cons c rest2 => simp [stripRun, h, bnd_space]

/-- Copy mode emits a space verbatim and records it as previous character. -/
theorem stripRun_copy_space (p : Option Char) (xs : List Char) :
    stripRun (.copy p) (' ' :: xs) = ' ' :: stripRun (.copy (some ' ')) xs := by
  have hn : ((' ' : Char) = 'n') = False := by decide
  cases xs with
  | nil => simp [stripRun]
  | cons b xs1 =>
      cases xs1 with
      | nil => simp [stripRun]
      | cons c xs2 => simp [stripRun, hn]

/-- `safeFrom` depends on the previous character only through the boundary
test. -/
theorem safeFrom_bnd (t : List Char) (p q : Option Char) (h : bnd p = bnd q) :
    safeFrom p t = safeFrom q t := by
  cases t with
  | nil => rfl
  | cons a t1 =>
      cases t1 with
      | nil => rfl
      | cons b t2 =>
          cases t2 with
          | nil => rfl
          | cons c t3 =>
              show (!(a = 'n' && bnd p && b = 'g' && c != ' ')
                  && safeFrom (some a) (b :: c :: t3))
                = (!(a = 'n' && bnd q && b = 'g' && c != ' ')
                  && safeFrom (some a) (b :: c :: t3))
              rw [h]

/-- Copy mode emits a safe all-non-space token verbatim, leaving the scan in
copy mode at the token's last character, provided what follows starts with a
space or is empty. -/
theorem stripRun_copy_tok (t : List Char) :
    ∀ (a : Char) (prev : Option Char) (xs : List Char),
      safeFrom prev (a :: t) = true →
      (∀ c ∈ a :: t, c ≠ ' ') →
      (xs = [] ∨ ∃ ys, xs = ' ' :: ys) →
      stripRun (.copy prev) (a :: (t ++ xs))
        = (a :: t) ++ stripRun (.copy (some (lastChar a t))) xs := by
  induction t with
  | nil =>
      intro a prev xs _ _ hxs
      rcases hxs with rfl | ⟨ys, rfl⟩
      · simp [stripRun, lastChar]
      · cases ys with
        | nil => simp [stripRun, lastChar]
        | cons z zs =>
            have hg : ((' ' : Char) = 'g') = False := by decide
            simp [stripRun, lastChar, hg]
  | cons b t' ih =>
      intro a prev xs hsafe hns hxs
      cases t' with
      | nil =>
          rcases hxs with rfl | ⟨ys, rfl⟩
          · simp [stripRun, lastChar]
          · have hsp : ((' ' : Char) != ' ') = false := by decide
            have hrec := ih b (some a) (' ' :: ys) rfl
              (fun c hc => hns c (by simp at hc ⊢; tauto))
              (Or.inr ⟨ys, rfl⟩)
            simp only [List.nil_append] at hrec
            rw [List.cons_append, List.nil_append,
              show stripRun (.copy prev) (a :: b :: ' ' :: ys)
                = if a = 'n' && bnd prev && b = 'g' && (' ' != ' ')
                  then stripRun .skipTok ys
                  else a :: stripRun (.copy (some a)) (b :: ' ' :: ys) from rfl,
              hsp]
            simp [hrec, lastChar]
      | cons c t'' =>
          have hsafe' : (!(a = 'n' && bnd prev && b = 'g' && c != ' ')
              && safeFrom (some a) (b :: c :: t'')) = true := hsafe
          rw [Bool.and_eq_true] at hsafe'
          obtain ⟨h1, h2⟩ := hsafe'
          rw [Bool.not_eq_true'] at h1
          have hrec := ih b (some a) xs h2
            (fun ch hc => hns ch (by simp at hc ⊢; tauto)) hxs
          simp only [List.cons_append] at hrec ⊢
          rw [show stripRun (.copy prev) (a :: b :: c :: (t'' ++ xs))
              = if a = 'n' && bnd prev && b = 'g' && c != ' '
                then stripRun .skipTok (t'' ++ xs)
                else a :: stripRun (.copy (some a)) (b :: c :: (t'' ++ xs))
              from rfl,
            h1]
          simp only [Bool.false_eq_true, if_false]
          rw [hrec]
          simp [lastChar]

/-- Unfolding of the scanner in copy mode at three or more characters. -/
theorem stripRun_copy_cons3 (prev : Option Char) (a b c : Char)
    (r : List Char) :
    stripRun (.copy prev) (a :: b :: c :: r)
      = if a = 'n' && bnd prev && b = 'g' && c != ' '
        then stripRun .skipTok r
        else a :: stripRun (.copy (some a)) (b :: c :: r) := rfl

/-- `skipTok` hands over to `skipSp` at a space. -/
theorem stripRun_skipTok_space (xs : List Char) :
    stripRun .skipTok (' ' :: xs) = stripRun .skipSp xs := by
  simp [stripRun]

/-- Unfolding of `joinToks` at two or more tokens. -/
theorem joinToks_cons2 (t t1 : List Char) (ts : List (List Char)) :
    joinToks (t :: t1 :: ts) = t ++ ' ' :: joinToks (t1 :: ts) := rfl

/-- Unfolding of `joinToks` at one token. -/
theorem joinToks_single (t : List Char) : joinToks [t] = t := rfl

/-- A joined class string starts with the first token's first character. -/
theorem joinToks_head (a1 : Char) (t1' : List Char) (ts : List (List Char)) :
    ∃ zs, joinToks ((a1 :: t1') :: ts) = a1 :: zs := by
  cases ts with
  | nil => exact ⟨t1', rfl⟩
  | cons t2 ts2 => exact ⟨t1' ++ ' ' :: joinToks (t2 :: ts2), rfl⟩

/-- Unfolding of `endsRemoved` at two or more tokens. -/
theorem endsRemoved_cons2 (t t1 : List Char) (ts : List (List Char)) :
    endsRemoved (t :: t1 :: ts) = endsRemoved (t1 :: ts) := rfl

/-- Unfolding of `endsRemoved` at one token. -/
theorem endsRemoved_singleton (t : List Char) : endsRemoved [t] = ngTok t := rfl

/-- If every token of a nonempty class list is removed by the regex, its
last token is removed. -/
theorem endsRemoved_of_filter_nil :
    ∀ (ts : List (List Char)), ts ≠ [] →
      ts.filter (fun t => !ngTok t) = [] → endsRemoved ts = true := by
  intro ts
  induction ts with
  | nil => intro h; exact absurd rfl h
  | cons t ts ih =>
      intro _ hf
      rw [List.filter_cons] at hf
      by_cases hng : (!ngTok t) = true
      · rw [if_pos hng] at hf
        exact absurd hf (by simp)
      · rw [if_neg hng] at hf
        cases ts with
        | nil =>
            have : ngTok t = true := by simpa using hng
            simpa [endsRemoved_singleton] using this
        | cons t1 ts' =>
            rw [endsRemoved_cons2]
            exact ih (by simp) hf

/-- The regex replacement on a well-formed class attribute: it yields the
kept tokens joined by single spaces, followed by one trailing space exactly
when some token is kept and the last token was removed. -/
theorem stripRun_join (toks : List (List Char)) :
    ∀ prev, (∀ t ∈ toks, goodTok t = true) → bnd prev = true →
      stripRun (.copy prev) (joinToks toks)
        = joinToks (toks.filter fun t => !ngTok t)
          ++ (if (toks.filter fun t => !ngTok t) ≠ []
                ∧ endsRemoved toks = true
              then [' '] else []) := by
  induction toks with
  | nil =>
      intro prev _ _
      simp [joinToks, stripRun]
  | cons t ts ih =>
      intro prev hgood hb
      have hgt := hgood t (by simp)
      rw [goodTok, Bool.and_eq_true, Bool.and_eq_true] at hgt
      obtain ⟨⟨hne, hall⟩, hor⟩ := hgt
      have hne' : t ≠ [] := by
        intro h
        subst h
        simp at hne
      have hnsp : ∀ c ∈ t, c ≠ ' ' := by
        intro c hc
        have hcw := (List.all_eq_true.mp hall) c hc
        exact ne_space_of_isWS_false (by simpa using hcw)
      obtain ⟨a, t0, rfl⟩ : ∃ a t0, t = a :: t0 := by
        cases t with
        | nil => exact absurd rfl hne'
        | cons a t0 => exact ⟨a, t0, rfl⟩
      by_cases hng : ngTok (a :: t0) = true
      · obtain ⟨b, c, r, rfl⟩ : ∃ b c r, t0 = b :: c :: r := by
          cases t0 with
          | nil => simp [ngTok] at hng
          | cons b t1 =>
              cases t1 with
              | nil => simp [ngTok] at hng
              | cons c r => exact ⟨b, c, r, rfl⟩
        have hcond : (a = 'n' && bnd prev && b = 'g' && c != ' ') = true := by
          have hng2 : (a = 'n' && (b = 'g') && c != ' ') = true := hng
          rw [Bool.and_eq_true, Bool.and_eq_true] at hng2
          obtain ⟨⟨ha, hbg⟩, hc⟩ := hng2
          simp [ha, hbg, hc, hb]
        have hfilter : ((a :: b :: c :: r) :: ts).filter (fun t => !ngTok t)
            = ts.filter (fun t => !ngTok t) := by
          simp [List.filter_cons, hng]
        have hr : ∀ ch ∈ r, ch ≠ ' ' := fun ch hc => hnsp ch (by simp [hc])
        cases ts with
        | nil =>
            rw [joinToks_single, stripRun_copy_cons3, hcond, if_pos rfl]
            have hskip := stripRun_skipTok_append r [] hr
            rw [List.append_nil] at hskip
            rw [hskip]
            simp [hfilter, joinToks, stripRun]
        | cons t1 ts' =>
            rw [joinToks_cons2, List.cons_append, List.cons_append,
              List.cons_append, stripRun_copy_cons3, hcond, if_pos rfl,
              stripRun_skipTok_append r (' ' :: joinToks (t1 :: ts')) hr,
              stripRun_skipTok_space]
            have hgt1 := hgood t1 (by simp)
            rw [goodTok, Bool.and_eq_true, Bool.and_eq_true] at hgt1
            obtain ⟨⟨hne1, hall1⟩, _⟩ := hgt1
            obtain ⟨a1, t1', rfl⟩ : ∃ a1 t1', t1 = a1 :: t1' := by
              cases t1 with
              | nil => simp at hne1
              | cons a1 t1' => exact ⟨a1, t1', rfl⟩
            have ha1 : a1 ≠ ' ' := by
              have hcw := (List.all_eq_true.mp hall1) a1 (by simp)
              exact ne_space_of_isWS_false (by simpa using hcw)
            obtain ⟨zs, hzs⟩ := joinToks_head a1 t1' ts'
            rw [hzs, stripRun_skipSp_exit a1 zs ha1, ← hzs,
              ih (some ' ') (fun u hu => hgood u (by simp [hu])) bnd_space,
              hfilter, endsRemoved_cons2]
      · have hng' : ngTok (a :: t0) = false := by simpa using hng
        have hsafe : safeFrom (some ' ') (a :: t0) = true := by
          rw [Bool.or_eq_true] at hor
          exact hor.resolve_left (by simp [hng'])
        have hsafe' : safeFrom prev (a :: t0) = true := by
          rw [safeFrom_bnd (a :: t0) prev (some ' ') (by rw [hb, bnd_space])]
          exact hsafe
        have hfilter : ((a :: t0) :: ts).filter (fun t => !ngTok t)
            = (a :: t0) :: ts.filter (fun t => !ngTok t) := by
          simp [List.filter_cons, hng']
        cases ts with
        | nil =>
            have hcopy := stripRun_copy_tok t0 a prev [] hsafe' hnsp (Or.inl rfl)
            rw [List.append_nil] at hcopy
            rw [joinToks_single, hcopy]
            simp [hfilter, joinToks, stripRun, endsRemoved_singleton, hng']
        | cons t1 ts' =>
            have hcopy := stripRun_copy_tok t0 a prev
              (' ' :: joinToks (t1 :: ts')) hsafe' hnsp (Or.inr ⟨_, rfl⟩)
            rw [joinToks_cons2, List.cons_append, hcopy, stripRun_copy_space,
              ih (some ' ') (fun u hu => hgood u (by simp [hu])) bnd_space,
              hfilter, endsRemoved_cons2]
            cases hk : (t1 :: ts').filter (fun t => !ngTok t) with
            | nil =>
                have her : endsRemoved (t1 :: ts') = true :=
                  endsRemoved_of_filter_nil (t1 :: ts') (by simp) hk
                simp [hk, her, joinToks]
            | cons k1 ks =>
                by_cases her : endsRemoved (t1 :: ts') = true
                · simp [hk, her, joinToks_cons2, joinToks]
                · simp [hk, her, joinToks_cons2, joinToks]

/-- The tokenizer accumulates a run of non-space characters. -/
theorem classTokensAux_append (t : List Char) :
    ∀ (cur xs : List Char), (∀ c ∈ t, c ≠ ' ') →
      classTokensAux cur (t ++ xs) = classTokensAux (t.reverse ++ cur) xs := by
  induction t with
  | nil => intro cur xs _; simp
  | cons c t ih =>
      intro cur xs h
      have hc : c ≠ ' ' := h c (by simp)
      rw [List.cons_append,
        show classTokensAux cur (c :: (t ++ xs))
          = if c = ' ' then
              (if cur.isEmpty then classTokensAux [] (t ++ xs)
               else cur.reverse :: classTokensAux [] (t ++ xs))
            else classTokensAux (c :: cur) (t ++ xs) from rfl,
        if_neg hc, ih (c :: cur) xs (fun x hx => h x (by simp [hx]))]
      simp

/-- Tokenizing a join of nonempty space-free tokens recovers the tokens. -/
theorem classTokens_join :
    ∀ (toks : List (List Char)),
      (∀ t ∈ toks, t ≠ [] ∧ ∀ c ∈ t, c ≠ ' ') →
      classTokens (joinToks toks) = toks := by
  intro toks
  induction toks with
  | nil => intro _; rfl
  | cons t ts ih =>
      intro h
      obtain ⟨hne, hnsp⟩ := h t (by simp)
      cases ts with
      | nil =>
          rw [joinToks_single, classTokens, ← List.append_nil t,
            classTokensAux_append t [] [] hnsp]
          simp [classTokensAux, hne]
      | cons t1 ts' =>
          rw [joinToks_cons2, classTokens,
            classTokensAux_append t [] (' ' :: joinToks (t1 :: ts')) hnsp,
            show classTokensAux (t.reverse ++ []) (' ' :: joinToks (t1 :: ts'))
              = (if (t.reverse ++ []).isEmpty then
                  classTokensAux [] (joinToks (t1 :: ts'))
                 else (t.reverse ++ []).reverse
                   :: classTokensAux [] (joinToks (t1 :: ts'))) from rfl]
          have hemp : (t.reverse ++ ([] : List Char)).isEmpty = false := by
            rw [List.append_nil]
            cases hrev : t.reverse with
            | nil => exact absurd (by simpa using hrev) hne
            | cons z zs => rfl
          rw [hemp]
          have hrest : classTokensAux [] (joinToks (t1 :: ts'))
              = classTokens (joinToks (t1 :: ts')) := rfl
          simp only [Bool.false_eq_true, if_false]
          rw [hrest, ih (fun u hu => h u (by simp [hu]))]
          simp

/-- `dropWhile` removes a fully-whitespace run before another list. -/
theorem dropWhile_ws_append (xs ys : List Char)
    (h : ∀ c ∈ xs, isWS c = true) :
    ((xs ++ ys).dropWhile isWS) = ys.dropWhile isWS := by
  induction xs with
  | nil => rfl
  | cons a xs ih =>
      have ha := h a (by simp)
      rw [List.cons_append, List.dropWhile_cons, ha]
      simp only [if_true]
      exact ih (fun c hc => h c (by simp [hc]))

/-- A join of nonempty whitespace-free tokens reversed starts with a
non-whitespace character. -/
theorem joinToks_reverse_head :
    ∀ (toks : List (List Char)), toks ≠ [] →
      (∀ t ∈ toks, t ≠ [] ∧ ∀ c ∈ t, isWS c = false) →
      ∃ z zs, (joinToks toks).reverse = z :: zs ∧ isWS z = false := by
  intro toks
  induction toks with
  | nil => intro h _; exact absurd rfl h
  | cons t ts ih =>
      intro _ h
      obtain ⟨hne', hnws⟩ := h t (by simp)
      cases ts with
      | nil =>
          rw [joinToks_single]
          cases hz : t.reverse with
          | nil => exact absurd (by simpa using hz) hne'
          | cons z zs =>
              refine ⟨z, zs, rfl, ?_⟩
              have hmem : z ∈ t.reverse := by rw [hz]; simp
              exact hnws z (List.mem_reverse.mp hmem)
      | cons t1 ts' =>
          obtain ⟨z, zs, hz, hzws⟩ := ih (by simp) (fun u hu => h u (by simp [hu]))
          refine ⟨z, zs ++ ' ' :: t.reverse, ?_, hzws⟩
          rw [joinToks_cons2, List.reverse_append, List.reverse_cons, hz]
          simp

/-- Trimming a join of good tokens followed by whitespace padding yields the
join itself. -/
theorem trimChars_join_pad (toks : List (List Char)) (pad : List Char)
    (htoks : ∀ t ∈ toks, t ≠ [] ∧ ∀ c ∈ t, isWS c = false)
    (hpad : ∀ c ∈ pad, isWS c = true) :
    trimChars (joinToks toks ++ pad) = joinToks toks := by
  cases toks with
  | nil =>
      have h0 : pad.dropWhile isWS = [] :=
        List.dropWhile_eq_nil_iff.mpr (fun x hx => hpad x hx)
      show trimChars (joinToks [] ++ pad) = joinToks []
      rw [show joinToks ([] : List (List Char)) = [] from rfl, List.nil_append]
      simp only [trimChars, h0]
      rfl
  | cons t ts =>
      obtain ⟨hne', hnws⟩ := htoks t (by simp)
      obtain ⟨a, t0, rfl⟩ : ∃ a t0, t = a :: t0 := by
        cases t with
        | nil => exact absurd rfl hne'
        | cons a t0 => exact ⟨a, t0, rfl⟩
      obtain ⟨zs, hzs⟩ := joinToks_head a t0 ts
      have haws : isWS a = false := hnws a (by simp)
      simp only [trimChars]
      rw [hzs, List.cons_append, List.dropWhile_cons, haws]
      simp only [Bool.false_eq_true, if_false]
      rw [show a :: (zs ++ pad) = (a :: zs) ++ pad from by simp,
        List.reverse_append,
        dropWhile_ws_append pad.reverse (a :: zs).reverse
          (fun c hc => hpad c (List.mem_reverse.mp hc)),
        ← hzs]
      obtain ⟨z, zs', hz, hzws⟩ :=
        joinToks_reverse_head ((a :: t0) :: ts) (by simp) htoks
      rw [hz, List.dropWhile_cons, hzws]
      simp only [Bool.false_eq_true, if_false]
      rw [← hz, List.reverse_reverse]

/-! ## Claims -/

/-- Claim C1, counterexample: when the change event carries an empty file
list (the user cancelled after a previous selection), the guard
`if(evt.target.files)` still passes — a FileList object is truthy even when
empty — so `$setViewValue(files[0])` is called with `undefined`: an update
IS emitted, and a previously bound file is replaced by `undefined` rather
than left unchanged. -/
theorem c1_counterexample :
    fileOnChange true (some []) ≠ ChangeOutcome.noUpdate
    ∧ fileBoundAfter (some []) (some ⟨"a.png", "xyz", "image/png"⟩)
        ≠ some ⟨"a.png", "xyz", "image/png"⟩ := by
  decide

/-- Claim C1, amended: when the change event carries at least one file, the
bound value is updated to exactly the first file.  When the event carries an
empty file list, an update is still emitted with value `undefined`,
clearing the bound value (the guard only checks that the `files` property
exists, not that it is non-empty); only when the event target has no
`files` property is no update emitted and the bound value left unchanged. -/
theorem c1_amended (f : FileHandle) (fs : List FileHandle)
    (prev : Option FileHandle) :
    fileOnChange true (some (f :: fs)) = ChangeOutcome.updated (some f)
    ∧ fileBoundAfter (some (f :: fs)) prev = some f
    ∧ fileOnChange true (some []) = ChangeOutcome.updated none
    ∧ fileBoundAfter (some []) prev = none
    ∧ fileOnChange true none = ChangeOutcome.noUpdate
    ∧ fileBoundAfter none prev = prev := by
  simp [fileOnChange, fileBoundAfter]

/-- Claim C2: every declared attribute of the custom element whose name does
not begin with `ng` ends up on the native input element with the element's
value for it; attributes beginning with `ng` are not copied (an unset key
of the fresh input stays unset). -/
theorem c2_attr_passthrough (attNames : List String)
    (ea : String → Option String) (k : String) :
    (k ∈ attNames → ngAttr k = false → fileLinkInput attNames ea k = ea k)
    ∧ (ngAttr k = true → fileLinkInput attNames ea k = none) := by
  constructor
  · intro h1 h2
    rw [fileLinkInput, fileLinkInput_foldl]
    simp [h1, h2]
  · intro h
    rw [fileLinkInput, fileLinkInput_foldl]
    simp [h]

/-- Witness for C2 at a concrete attribute set. -/
theorem c2_attr_passthrough_witness :
    fileLinkInput ["accept", "ngModel"]
        (fun k => if k = "accept" then some "image/*" else some "m") "accept"
      = some "image/*"
    ∧ fileLinkInput ["accept", "ngModel"]
        (fun k => if k = "accept" then some "image/*" else some "m") "ngModel"
      = none := by
  refine ⟨?_, ?_⟩
  · exact (c2_attr_passthrough ["accept", "ngModel"]
      (fun k => if k = "accept" then some "image/*" else some "m")
      "accept").1 (by simp) (by decide)
  · exact (c2_attr_passthrough ["accept", "ngModel"]
      (fun k => if k = "accept" then some "image/*" else some "m")
      "ngModel").2 (by decide)

/-- Claim C3: when the bound value is a FileHandle and the platform file
type exists, the image is made visible synchronously (display set to the
empty string by the same handler invocation), an asynchronous read of that
file is initiated, and when the read completes the image's source equals
the data-URL encoding of that file's content. -/
theorem c3_file_preview (f : FileHandle) (img : Img) :
    (localImageStep true (.file f) img).1.display = ""
    ∧ (localImageStep true (.file f) img).2 = some f
    ∧ (completeRead f (localImageStep true (.file f) img).1).src
        = some (dataURL f) := by
  simp [localImageStep, completeRead, readerOnload, truthy, isFileVal, getFile]

/-- Claim C4: when the bound value is not a FileHandle (including
undefined and null), the image is hidden immediately and no read is
initiated, whatever the platform file type's availability. -/
theorem c4_non_file_hidden (hasFileAPI : Bool) (d : JSValue) (img : Img)
    (h : isFileVal d = false) :
    (localImageStep hasFileAPI d img).1.display = "none"
    ∧ (localImageStep hasFileAPI d img).2 = none := by
  simp [localImageStep, h]

/-- Witness for C4 at the null value. -/
theorem c4_non_file_hidden_witness :
    isFileVal JSValue.nullv = false
    ∧ (localImageStep true JSValue.nullv ⟨"", none⟩).1.display = "none"
    ∧ (localImageStep true JSValue.nullv ⟨"", none⟩).2 = none :=
  ⟨by decide, c4_non_file_hidden true JSValue.nullv ⟨"", none⟩ (by decide)⟩

/-- Claim C5: confirming with no selection never invokes the on-select
callback (and leaves the scope unchanged); confirming after record `R` was
selected, with a callable callback supplied, invokes the callback exactly
once with `R` as its argument and modifies neither the selection nor the
professor list. -/
theorem c5_select_confirm (cb : CallbackVal) (s : ProfScope) (R : Professor) :
    (s.selectedProfessor = none → selectProfessor cb s = (s, []))
    ∧ (s.selectedProfessor = some R → callbackGuard cb = true →
        selectProfessor cb s = (s, [R])) := by
  constructor
  · intro h; simp [selectProfessor, h]
  · intro h hcb; simp [selectProfessor, h, hcb]

/-- Witness for C5: the end-to-end scenario of the spec (two records,
select id 2, confirm). -/
theorem c5_select_confirm_witness :
    selectProfessor CallbackVal.callable (initScope [⟨1, "A"⟩, ⟨2, "B"⟩])
      = (initScope [⟨1, "A"⟩, ⟨2, "B"⟩], [])
    ∧ selectProfessor CallbackVal.callable ⟨[⟨1, "A"⟩, ⟨2, "B"⟩], some ⟨2, "B"⟩⟩
      = (⟨[⟨1, "A"⟩, ⟨2, "B"⟩], some ⟨2, "B"⟩⟩, [⟨2, "B"⟩]) :=
  ⟨(c5_select_confirm CallbackVal.callable (initScope [⟨1, "A"⟩, ⟨2, "B"⟩])
      ⟨2, "B"⟩).1 rfl,
   (c5_select_confirm CallbackVal.callable
      ⟨[⟨1, "A"⟩, ⟨2, "B"⟩], some ⟨2, "B"⟩⟩ ⟨2, "B"⟩).2 rfl rfl⟩

/-- Claim C6, counterexample: the class transfer does not move ALL classes.
On the class attribute `"ng-scope foo"` the assigned input class string is
`"foo"`: the `ng-scope` class is removed by the
`replace(/\bng[^ ]+ *\/g, '')` call, so the input's class list differs from
the custom element's former class list. -/
theorem c6_counterexample :
    fileInputClassName ("ng-scope foo").data = ("foo").data
    ∧ classTokens (fileInputClassName ("ng-scope foo").data)
        ≠ classTokens ("ng-scope foo").data := by
  decide

/-- Claim C6, amended: for a class attribute made of well-formed tokens
(nonempty, whitespace-free, with no internal word-boundary `ng`
occurrence), the CSS classes of the custom element EXCEPT those the regex
`/\bng[^ ]+/` removes (tokens starting with `ng` followed by at least one
more character) are moved, in order, onto the native input element, and the
custom element's own class attribute is cleared. -/
theorem c6_class_transfer_amended (toks : List (List Char))
    (h : ∀ t ∈ toks, goodTok t = true)
    (attNames : List String) (ea : String → Option String) :
    classTokens (fileInputClassName (joinToks toks))
      = toks.filter (fun t => !ngTok t)
    ∧ (fileLink attNames ea (some (joinToks toks))).map
        FileLinkResult.elemClassAfter = some [] := by
  constructor
  · have hkept : ∀ t ∈ toks.filter (fun t => !ngTok t),
        t ≠ [] ∧ ∀ c ∈ t, isWS c = false := by
      intro t ht
      have ht' : t ∈ toks := List.mem_of_mem_filter ht
      have hg := h t ht'
      rw [goodTok, Bool.and_eq_true, Bool.and_eq_true] at hg
      obtain ⟨⟨hne, hall⟩, _⟩ := hg
      constructor
      · intro hnil
        subst hnil
        simp at hne
      · intro c hc
        have hcw := (List.all_eq_true.mp hall) c hc
        simpa using hcw
    have hpad : ∀ c ∈ (if (toks.filter fun t => !ngTok t) ≠ []
          ∧ endsRemoved toks = true then [' '] else ([] : List Char)),
        isWS c = true := by
      split
      · intro c hc
        simp at hc
        subst hc
        rfl
      · intro c hc
        simp at hc
    rw [fileInputClassName, stripRun_join toks none h (by decide),
      trimChars_join_pad _ _ hkept hpad]
    exact classTokens_join _ (fun t ht =>
      ⟨(hkept t ht).1,
       fun c hc => ne_space_of_isWS_false ((hkept t ht).2 c hc)⟩)
  · simp [fileLink]

/-- Witness for the amended C6 at the class attribute `"foo ng-scope"`. -/
theorem c6_class_transfer_amended_witness :
    classTokens (fileInputClassName (joinToks [['f', 'o', 'o'],
        ['n', 'g', '-', 's', 'c', 'o', 'p', 'e']]))
      = [['f', 'o', 'o']]
    ∧ (fileLink [] (fun _ => none) (some (joinToks [['f', 'o', 'o'],
        ['n', 'g', '-', 's', 'c', 'o', 'p', 'e']]))).map
        FileLinkResult.elemClassAfter = some [] := by
  have h := c6_class_transfer_amended
    [['f', 'o', 'o'], ['n', 'g', '-', 's', 'c', 'o', 'p', 'e']]
    (by decide) [] (fun _ => none)
  refine ⟨h.1.trans ?_, h.2⟩
  decide

/-- Claim C7: with a selection present but the callback absent or not
invocable, the confirmation action is a no-op: no invocation happens, the
scope is unchanged, and (being a total function) no error is raised. -/
theorem c7_callback_guard (cb : CallbackVal) (s : ProfScope) (R : Professor)
    (h : s.selectedProfessor = some R) (hcb : callbackGuard cb = false) :
    selectProfessor cb s = (s, []) := by
  simp [selectProfessor, h, hcb]

/-- Witness for C7 at a concrete scope with an absent callback. -/
theorem c7_callback_guard_witness :
    (⟨[⟨1, "A"⟩], some ⟨1, "A"⟩⟩ : ProfScope).selectedProfessor = some ⟨1, "A"⟩
    ∧ callbackGuard CallbackVal.absent = false
    ∧ selectProfessor CallbackVal.absent ⟨[⟨1, "A"⟩], some ⟨1, "A"⟩⟩
        = (⟨[⟨1, "A"⟩], some ⟨1, "A"⟩⟩, []) :=
  ⟨rfl, rfl,
   c7_callback_guard CallbackVal.absent ⟨[⟨1, "A"⟩], some ⟨1, "A"⟩⟩ ⟨1, "A"⟩
     rfl rfl⟩

/-- Claim C8: with no `ng-model` attribute, no watch is registered and the
image element is never touched by the widget, whatever sequence of host
state changes occurs. -/
theorem c8_no_binding_frame (hasFileAPI : Bool) (ds : List JSValue)
    (img : Img) :
    ngModelTruthy none = false ∧ localImageRun hasFileAPI none ds img = img := by
  constructor
  · rfl
  · simp [localImageRun, ngModelTruthy]

/-- Claim C9: linking the `file` directive on an element without a class
attribute throws (`element.attr('class')` is `undefined`, and `.replace` on
it raises a TypeError); with any class attribute present, even empty,
linking succeeds. -/
theorem c9_class_required (attNames : List String)
    (ea : String → Option String) (c : List Char) :
    fileLink attNames ea none = none
    ∧ (fileLink attNames ea (some c)).isSome = true := by
  simp [fileLink]

/-- Claim C10: with no `ng-model` binding (`require: '?ngModel'` left
unsatisfied, so `ngModel` is `null`), a change event that carries a
`files` property makes the handler throw on `ngModel.$setViewValue`
instead of being a no-op; without a `files` property nothing is called. -/
theorem c10_ngmodel_deref (fs : List FileHandle) :
    fileOnChange false (some fs) = ChangeOutcome.threw
    ∧ fileOnChange false none = ChangeOutcome.noUpdate := by
  simp [fileOnChange]

end NewCourseDirectives
